import Mathlib

/-!
Verification of the markdown/mermaid segmentation and HTML-export pipeline
of `src/app.py`.

The program splits the LLM response on the regular expression
`re.compile(r"```mermaid\n(.*?)\n```", re.DOTALL)` with `re.split`,
which returns the texts between matches interleaved with the captured
groups (the diagram bodies).  Strings are modelled as `List Char`.
-/

/-- The opening marker of a mermaid fence: the fence token immediately
followed by the `mermaid` keyword and a newline (11 characters). -/
def openTok : List Char := "```mermaid\n".data

/-- The closing delimiter: a newline followed by the generic fence token
(4 characters). -/
def closeTok : List Char := "\n```".data

/-- Index of the first occurrence of `pat` as a contiguous substring of
`s` (leftmost match of a literal pattern, as the regex engine scans). -/
def findSub (pat : List Char) : List Char → Option Nat
  | [] => if pat.isPrefixOf ([] : List Char) then some 0 else none
  | c :: cs =>
    if pat.isPrefixOf (c :: cs) then some 0
    else Option.map (fun k => k + 1) (findSub pat cs)

/-- Leftmost match of the pattern ```` ```mermaid\n(.*?)\n``` ```` (DOTALL):
the first opening marker, then — lazily — the first occurrence of the
closing delimiter after it.  Returns `(start, group, matchEnd)` where
`group` is the captured diagram body and `matchEnd` the index one past
the whole match. -/
def findMatch (s : List Char) : Option (Nat × List Char × Nat) :=
  match findSub openTok s with
  | none => none
  | some p =>
    match findSub closeTok (s.drop (p + 11)) with
    | none => none
    | some j => some (p, (s.drop (p + 11)).take j, p + 11 + j + 4)

/-- Fuel-indexed worker for `re.split` on the mermaid pattern: text before
the match, then the captured group, then the split of the remainder. -/
def reSplitGo : Nat → List Char → List (List Char)
  | 0, s => [s]
  | n + 1, s =>
    match findMatch s with
    | none => [s]
    | some (p, g, e) => s.take p :: g :: reSplitGo n (s.drop e)

/-- `re.split(mermaid_pattern, s)`: the list of strings the program loops
over (lines 108-118 and 180-193 of `src/app.py`). -/
def reSplit (s : List Char) : List (List Char) := reSplitGo s.length s

/-- Fuel-indexed count of matches the scanner finds. -/
def countGo : Nat → List Char → Nat
  | 0, _ => 0
  | n + 1, s =>
    match findMatch s with
    | none => 0
    | some (_, _, e) => countGo n (s.drop e) + 1

/-- Number of well-formed fence pairs the scanner matches in `s`. -/
def countFences (s : List Char) : Nat := countGo s.length s

/-- A segment of the report, tagged by the positional parity the two
consumers assign to the split result: even index = prose, odd = diagram. -/
inductive Segment where
  | prose (text : List Char) : Segment
  | diagram (text : List Char) : Segment
deriving DecidableEq

/-- The raw text carried by a segment. -/
def Segment.text : Segment → List Char
  | .prose t => t
  | .diagram t => t

/-- Whether a segment is a diagram segment. -/
def Segment.isDiag : Segment → Bool
  | .prose _ => false
  | .diagram _ => true

/-- Fuel-indexed worker producing the tagged segment sequence. -/
def splitGo : Nat → List Char → List Segment
  | 0, s => [.prose s]
  | n + 1, s =>
    match findMatch s with
    | none => [.prose s]
    | some (p, g, e) => .prose (s.take p) :: .diagram g :: splitGo n (s.drop e)

/-- The tagged segmentation of a response text. -/
def segments (s : List Char) : List Segment := splitGo s.length s

-- Basic facts about the tokens.

theorem openTok_length : openTok.length = 11 := by decide

theorem closeTok_length : closeTok.length = 4 := by decide

theorem openTok_ne_nil : openTok ≠ [] := by decide

theorem closeTok_ne_nil : closeTok ≠ [] := by decide

-- `findSub` characterisation.

theorem findSub_some {pat s : List Char} {j : Nat}
    (h : findSub pat s = some j) :
    pat <+: s.drop j ∧ ∀ q, q < j → ¬ pat <+: s.drop q := by
  induction s generalizing j with
  | nil =>
    unfold findSub at h
    by_cases hp : pat.isPrefixOf ([] : List Char)
    · simp [hp] at h
      subst h
      refine ⟨?_, by omega⟩
      simpa using (List.isPrefixOf_iff_prefix.mp hp)
    · simp [hp] at h
  | cons c cs ih =>
    unfold findSub at h
    by_cases hp : pat.isPrefixOf (c :: cs)
    · simp [hp] at h
      subst h
      exact ⟨List.isPrefixOf_iff_prefix.mp hp, by omega⟩
    · simp [hp] at h
      obtain ⟨k, hk, rfl⟩ := h
      obtain ⟨h1, h2⟩ := ih hk
      refine ⟨by simpa using h1, ?_⟩
      intro q hq
      cases q with
      | zero =>
        simpa using fun hcon => hp (List.isPrefixOf_iff_prefix.mpr hcon)
      | succ q' =>
        have := h2 q' (by omega)
        simpa using this

theorem findSub_none {pat s : List Char}
    (h : findSub pat s = none) :
    ∀ q, ¬ pat <+: s.drop q := by
  induction s with
  | nil =>
    intro q hq
    unfold findSub at h
    by_cases hp : pat.isPrefixOf ([] : List Char)
    · simp [hp] at h
    · exact hp (List.isPrefixOf_iff_prefix.mpr (by simpa using hq))
  | cons c cs ih =>
    intro q hq
    unfold findSub at h
    by_cases hp : pat.isPrefixOf (c :: cs)
    · simp [hp] at h
    · simp [hp] at h
      cases q with
      | zero => exact hp (List.isPrefixOf_iff_prefix.mpr (by simpa using hq))
      | succ q' => exact ih h q' (by simpa using hq)

theorem findSub_of_min {pat s : List Char} {j : Nat}
    (h1 : pat <+: s.drop j) (h2 : ∀ q, q < j → ¬ pat <+: s.drop q) :
    findSub pat s = some j := by
  induction s generalizing j with
  | nil =>
    have hp : pat = [] := by simpa using h1
    have hj : j = 0 := by
      by_contra hne
      exact h2 0 (by omega) (by simp [hp])
    subst hj
    subst hp
    unfold findSub
    simp
  | cons c cs ih =>
    unfold findSub
    by_cases hp : pat.isPrefixOf (c :: cs)
    · have hj : j = 0 := by
        by_contra hne
        exact h2 0 (by omega) (by simpa using List.isPrefixOf_iff_prefix.mp hp)
      subst hj
      simp [hp]
    · have hj : j ≠ 0 := by
        intro hj0
        subst hj0
        exact hp (List.isPrefixOf_iff_prefix.mpr (by simpa using h1))
      obtain ⟨j', rfl⟩ : ∃ j', j = j' + 1 := ⟨j - 1, by omega⟩
      have h1' : pat <+: cs.drop j' := by simpa using h1
      have h2' : ∀ q, q < j' → ¬ pat <+: cs.drop q := by
        intro q hq hcon
        exact h2 (q + 1) (by omega) (by simpa using hcon)
      simp [hp, ih h1' h2']

/-- An occurrence of a nonempty pattern lies entirely inside the string. -/
theorem occur_le {pat s : List Char} {q : Nat}
    (hne : pat ≠ []) (h : pat <+: s.drop q) :
    q + pat.length ≤ s.length := by
  obtain ⟨t, ht⟩ := h
  have hlen : (s.drop q).length = pat.length + t.length := by
    rw [← ht]; simp
  have hdl : (s.drop q).length = s.length - q := by simp
  have hpos : 0 < pat.length := List.length_pos.mpr hne
  omega

theorem findMatch_nil : findMatch ([] : List Char) = none := by decide

theorem splitGo_succ (n : Nat) (s : List Char) :
    splitGo (n + 1) s = match findMatch s with
      | none => [.prose s]
      | some (p, g, e) =>
          .prose (s.take p) :: .diagram g :: splitGo n (s.drop e) := rfl

theorem reSplitGo_succ (n : Nat) (s : List Char) :
    reSplitGo (n + 1) s = match findMatch s with
      | none => [s]
      | some (p, g, e) => s.take p :: g :: reSplitGo n (s.drop e) := rfl

theorem countGo_succ (n : Nat) (s : List Char) :
    countGo (n + 1) s = match findMatch s with
      | none => 0
      | some (_, _, e) => countGo n (s.drop e) + 1 := rfl

/-- Full characterisation of a successful leftmost lazy match. -/
theorem findMatch_some_spec {s : List Char} {p e : Nat} {g : List Char}
    (h : findMatch s = some (p, g, e)) :
    ∃ j, g = (s.drop (p + 11)).take j ∧ g.length = j ∧ e = p + 11 + j + 4 ∧
      openTok <+: s.drop p ∧ (∀ q, q < p → ¬ openTok <+: s.drop q) ∧
      closeTok <+: s.drop (p + 11 + j) ∧
      (∀ q, q < j → ¬ closeTok <+: s.drop (p + 11 + q)) ∧
      s = s.take p ++ openTok ++ g ++ closeTok ++ s.drop e ∧
      e ≤ s.length := by
  unfold findMatch at h
  cases h1 : findSub openTok s with
  | none => simp [h1] at h
  | some p0 =>
    simp only [h1] at h
    cases h2 : findSub closeTok (s.drop (p0 + 11)) with
    | none => simp [h2] at h
    | some j =>
      simp only [h2, Option.some.injEq, Prod.mk.injEq] at h
      obtain ⟨rfl, rfl, rfl⟩ := h
      obtain ⟨ho, homin⟩ := findSub_some h1
      obtain ⟨hc, hcmin⟩ := findSub_some h2
      have hdd : ∀ k, (s.drop (p0 + 11)).drop k = s.drop (p0 + 11 + k) := by
        intro k; rw [List.drop_drop]
      have hclose : closeTok <+: s.drop (p0 + 11 + j) := by
        rw [← hdd j]; exact hc
      have hjlen : j + closeTok.length ≤ (s.drop (p0 + 11)).length :=
        occur_le closeTok_ne_nil hc
      have hjlen4 : j + 4 ≤ (s.drop (p0 + 11)).length := by
        rw [closeTok_length] at hjlen; exact hjlen
      have hglen : ((s.drop (p0 + 11)).take j).length = j := by
        simp only [List.length_take]
        omega
      refine ⟨j, rfl, hglen, rfl, ho, homin, hclose, ?_, ?_, ?_⟩
      · intro q hq hcon
        exact hcmin q hq (by rw [hdd q]; exact hcon)
      · obtain ⟨t, ht⟩ := ho
        have htt : t = s.drop (p0 + 11) := by
          have hgolden := congrArg (List.drop 11) ht
          rw [List.drop_left' openTok_length, List.drop_drop] at hgolden
          exact hgolden.symm ▸ rfl
        obtain ⟨u, hu⟩ := hclose
        have huu : u = s.drop (p0 + 11 + j + 4) := by
          have hx := congrArg (List.drop 4) hu
          rw [List.drop_left' closeTok_length, List.drop_drop] at hx
          exact hx.symm ▸ rfl
        have hv : s.drop (p0 + 11) =
            (s.drop (p0 + 11)).take j ++ s.drop (p0 + 11 + j) := by
          rw [← hdd j]; exact (List.take_append_drop _ _).symm
        calc s = s.take p0 ++ s.drop p0 := (List.take_append_drop _ _).symm
          _ = s.take p0 ++ (openTok ++ t) := by rw [ht]
          _ = s.take p0 ++ (openTok ++ s.drop (p0 + 11)) := by rw [htt]
          _ = s.take p0 ++ (openTok ++ ((s.drop (p0 + 11)).take j ++
                s.drop (p0 + 11 + j))) := by rw [← hv]
          _ = s.take p0 ++ (openTok ++ ((s.drop (p0 + 11)).take j ++
                (closeTok ++ u))) := by rw [hu]
          _ = s.take p0 ++ openTok ++ (s.drop (p0 + 11)).take j ++
                closeTok ++ s.drop (p0 + 11 + j + 4) := by
                rw [huu]; simp [List.append_assoc]
      · have := occur_le closeTok_ne_nil hclose
        rw [closeTok_length] at this
        omega

/-- When the scanner finds no match there is no well-formed fence pair:
no opening marker followed (at distance at least 11) by a close token. -/
theorem findMatch_none_spec {s : List Char} (h : findMatch s = none) :
    ∀ p q, openTok <+: s.drop p → closeTok <+: s.drop q → p + 11 ≤ q →
      False := by
  unfold findMatch at h
  cases h1 : findSub openTok s with
  | none => intro p q hp _ _; exact findSub_none h1 p hp
  | some p0 =>
    simp only [h1] at h
    cases h2 : findSub closeTok (s.drop (p0 + 11)) with
    | some j => simp [h2] at h
    | none =>
      intro p q hp hq hpq
      have homin := (findSub_some h1).2
      have hp0 : p0 ≤ p := by
        by_contra hcon
        exact homin p (by omega) hp
      have hq' : closeTok <+: (s.drop (p0 + 11)).drop (q - (p0 + 11)) := by
        rw [List.drop_drop]
        have harith : p0 + 11 + (q - (p0 + 11)) = q := by omega
        rw [harith]
        exact hq
      exact findSub_none h2 _ hq'

-- Fuel congruence and unfolding equations.

theorem splitGo_congr : ∀ n m s, s.length ≤ n → s.length ≤ m →
    splitGo n s = splitGo m s := by
  intro n
  induction n with
  | zero =>
    intro m s hn _
    have hs : s = [] := List.eq_nil_of_length_eq_zero (by omega)
    subst hs
    cases m with
    | zero => rfl
    | succ m' =>
      rw [splitGo_succ, findMatch_nil]
      rfl
  | succ n' ih =>
    intro m s hn hm
    cases m with
    | zero =>
      have hs : s = [] := List.eq_nil_of_length_eq_zero (by omega)
      subst hs
      rw [splitGo_succ, findMatch_nil]
      rfl
    | succ m' =>
      rw [splitGo_succ, splitGo_succ]
      cases hmt : findMatch s with
      | none => rfl
      | some pge =>
        obtain ⟨p, g, e⟩ := pge
        obtain ⟨j, _, _, he, _, _, _, _, _, hle⟩ := findMatch_some_spec hmt
        have hlen : (s.drop e).length = s.length - e := by simp
        simp only [List.cons.injEq, true_and]
        exact ih m' (s.drop e) (by omega) (by omega)

theorem segments_eq (s : List Char) :
    segments s = match findMatch s with
    | none => [.prose s]
    | some (p, g, e) => .prose (s.take p) :: .diagram g :: segments (s.drop e)
    := by
  unfold segments
  cases hmt : findMatch s with
  | none =>
    cases hl : s.length with
    | zero => rfl
    | succ n => rw [splitGo_succ, hmt]
  | some pge =>
    obtain ⟨p, g, e⟩ := pge
    obtain ⟨j, _, _, he, _, _, _, _, _, hle⟩ := findMatch_some_spec hmt
    cases hl : s.length with
    | zero => omega
    | succ n =>
      rw [splitGo_succ, hmt]
      have hlen : (s.drop e).length = s.length - e := by simp
      simp only [List.cons.injEq, true_and]
      exact splitGo_congr n (s.drop e).length (s.drop e) (by omega)
        (Nat.le_refl _)

/-- The untagged `re.split` result is the tagged segmentation with the
tags erased: the program's positional-parity reading of the flat list
agrees with the tagged model. -/
theorem reSplitGo_map : ∀ n s, reSplitGo n s = (splitGo n s).map Segment.text := by
  intro n
  induction n with
  | zero => intro s; rfl
  | succ n' ih =>
    intro s
    rw [reSplitGo_succ, splitGo_succ]
    cases hmt : findMatch s with
    | none => rfl
    | some pge =>
      obtain ⟨p, g, e⟩ := pge
      simp [ih, Segment.text]

theorem reSplit_map (s : List Char) :
    reSplit s = (segments s).map Segment.text := reSplitGo_map s.length s

theorem splitGo_length : ∀ n s, (splitGo n s).length = 2 * countGo n s + 1 := by
  intro n
  induction n with
  | zero => intro s; rfl
  | succ n' ih =>
    intro s
    rw [splitGo_succ, countGo_succ]
    cases hmt : findMatch s with
    | none => rfl
    | some pge =>
      obtain ⟨p, g, e⟩ := pge
      show (Segment.prose (s.take p) :: Segment.diagram g ::
        splitGo n' (s.drop e)).length = 2 * (countGo n' (s.drop e) + 1) + 1
      simp only [List.length_cons, ih]
      omega

/-- Python whitespace, as `str.strip()` with no argument removes it. -/
def pySpace (c : Char) : Bool :=
  c == ' ' || c == '\t' || c == '\n' || c == '\r' || c == '\x0b' || c == '\x0c'

/-- `part.strip()`: leading and trailing whitespace removed. -/
def pyStrip (s : List Char) : List Char :=
  ((s.dropWhile pySpace).reverse.dropWhile pySpace).reverse

/-- Re-join a split result by positional parity: even-indexed elements
verbatim, odd-indexed elements re-wrapped in the opening marker and the
closing fence.  The flag is `true` when the next element is odd-indexed. -/
def rejoinGo : Bool → List (List Char) → List Char
  | _, [] => []
  | false, p :: ps => p ++ rejoinGo true ps
  | true, p :: ps => openTok ++ p ++ closeTok ++ rejoinGo false ps

theorem splitGo_ne_nil (n : Nat) (s : List Char) : splitGo n s ≠ [] := by
  cases n with
  | zero => simp [splitGo]
  | succ n' =>
    rw [splitGo_succ]
    cases hmt : findMatch s with
    | none => simp
    | some pge => obtain ⟨p, g, e⟩ := pge; simp

theorem segments_ne_nil (s : List Char) : segments s ≠ [] :=
  splitGo_ne_nil s.length s

theorem rejoin_splitGo : ∀ n s, s.length ≤ n →
    rejoinGo false (reSplitGo n s) = s := by
  intro n
  induction n with
  | zero =>
    intro s hn
    have hs : s = [] := List.eq_nil_of_length_eq_zero (by omega)
    subst hs
    rfl
  | succ n' ih =>
    intro s hn
    rw [reSplitGo_succ]
    cases hmt : findMatch s with
    | none => show s ++ rejoinGo true [] = s; simp [rejoinGo]
    | some pge =>
      obtain ⟨p, g, e⟩ := pge
      obtain ⟨j, _, _, he, _, _, _, _, hdec, hle⟩ := findMatch_some_spec hmt
      show s.take p ++ (openTok ++ g ++ closeTok ++
        rejoinGo false (reSplitGo n' (s.drop e))) = s
      have hlen : (s.drop e).length = s.length - e := by simp
      rw [ih (s.drop e) (by omega)]
      conv_rhs => rw [hdec]
      simp [List.append_assoc]

theorem splitGo_parity : ∀ n s i seg, (splitGo n s)[i]? = some seg →
    seg.isDiag = decide (i % 2 = 1) := by
  intro n
  induction n with
  | zero =>
    intro s i seg h
    cases i with
    | zero =>
      simp [splitGo] at h
      subst h
      rfl
    | succ i' => simp [splitGo] at h
  | succ n' ih =>
    intro s i seg h
    rw [splitGo_succ] at h
    cases hmt : findMatch s with
    | none =>
      rw [hmt] at h
      cases i with
      | zero =>
        simp at h
        subst h
        rfl
      | succ i' => simp at h
    | some pge =>
      obtain ⟨p, g, e⟩ := pge
      rw [hmt] at h
      match i with
      | 0 =>
        simp at h
        subst h
        rfl
      | 1 =>
        simp at h
        subst h
        rfl
      | i' + 2 =>
        have h' : (splitGo n' (s.drop e))[i']? = some seg := by
          simpa using h
        have hmod : (i' + 2) % 2 = i' % 2 := by omega
        rw [hmod]
        exact ih (s.drop e) i' seg h'

theorem splitGo_countP : ∀ n s,
    (splitGo n s).countP Segment.isDiag = countGo n s := by
  intro n
  induction n with
  | zero =>
    intro s
    simp [splitGo, countGo, List.countP_cons, Segment.isDiag]
  | succ n' ih =>
    intro s
    rw [splitGo_succ, countGo_succ]
    cases hmt : findMatch s with
    | none => simp [List.countP_cons, Segment.isDiag]
    | some pge =>
      obtain ⟨p, g, e⟩ := pge
      simp [List.countP_cons, Segment.isDiag, ih]

/-- C1.  Segmentation parity invariant: in the split of any input text,
every even-indexed element is a Prose segment and every odd-indexed
element is a Diagram segment, and the number of Diagram segments equals
the number of well-formed fence pairs the scanner finds. -/
theorem segmentation_parity_invariant (s : List Char) (i : Nat)
    (seg : Segment) (h : (segments s)[i]? = some seg) :
    seg.isDiag = decide (i % 2 = 1) ∧
    (segments s).countP Segment.isDiag = countFences s :=
  ⟨splitGo_parity s.length s i seg h, splitGo_countP s.length s⟩

theorem segmentation_parity_invariant_witness :
    (Segment.diagram "X".data).isDiag = decide (1 % 2 = 1) ∧
    (segments ("a\n```mermaid\nX\n```z".data)).countP Segment.isDiag =
      countFences ("a\n```mermaid\nX\n```z".data) :=
  segmentation_parity_invariant ("a\n```mermaid\nX\n```z".data) 1
    (Segment.diagram "X".data) (by decide)

/-- C2.  Round-trip reconstruction: re-joining the split result — even
elements verbatim, odd elements re-wrapped in `openTok` and `closeTok` —
reproduces the input text exactly (for every input, in particular those
containing only well-formed fences). -/
theorem round_trip_reconstruction (s : List Char) :
    rejoinGo false (reSplit s) = s :=
  rejoin_splitGo s.length s (Nat.le_refl _)

theorem splitGo_getLast : ∀ n s,
    ((splitGo n s).getLast (splitGo_ne_nil n s)).isDiag = false := by
  intro n
  induction n with
  | zero => intro s; rfl
  | succ n' ih =>
    intro s
    cases hmt : findMatch s with
    | none =>
      have hx : splitGo (n' + 1) s = [.prose s] := by
        rw [splitGo_succ, hmt]
      simp [List.getLast_congr _ _ hx]
      rfl
    | some pge =>
      obtain ⟨p, g, e⟩ := pge
      have hx : splitGo (n' + 1) s =
          .prose (s.take p) :: .diagram g :: splitGo n' (s.drop e) := by
        rw [splitGo_succ, hmt]
      rw [List.getLast_congr _ _ hx, List.getLast_cons, List.getLast_cons]
      exact ih (s.drop e)

/-- C9.  The split always has odd length `2k + 1` where `k` is the number
of matched fence pairs, and it begins and ends with a Prose segment. -/
theorem split_odd_length (s : List Char) :
    (reSplit s).length = 2 * countFences s + 1 ∧
    (∃ t rest, segments s = .prose t :: rest) ∧
    ((segments s).getLast (segments_ne_nil s)).isDiag = false := by
  refine ⟨?_, ?_, splitGo_getLast s.length s⟩
  · rw [reSplit_map]
    rw [List.length_map]
    exact splitGo_length s.length s
  · rw [segments_eq]
    cases hmt : findMatch s with
    | none => exact ⟨s, [], rfl⟩
    | some pge =>
      obtain ⟨p, g, e⟩ := pge
      exact ⟨s.take p, _, rfl⟩

/-- C7.  Empty-diagram tolerance: an input containing zero well-formed
fence pairs (no opening marker followed, at distance at least the
marker's length, by a close token) splits into exactly one Prose segment
equal to the whole input. -/
theorem no_fence_single_segment (s : List Char)
    (h : ∀ p, p < s.length → ∀ q, q < s.length →
      ¬ (openTok <+: s.drop p ∧ closeTok <+: s.drop q ∧ p + 11 ≤ q)) :
    segments s = [.prose s] ∧ reSplit s = [s] := by
  have hnone : findMatch s = none := by
    cases hmt : findMatch s with
    | none => rfl
    | some pge =>
      obtain ⟨p, g, e⟩ := pge
      obtain ⟨j, _, _, he, ho, _, hc, _, _, hle⟩ := findMatch_some_spec hmt
      have hpb : p + 11 ≤ s.length := by
        have hx := occur_le openTok_ne_nil ho
        rw [openTok_length] at hx
        exact hx
      have hqb : p + 11 + j + 4 ≤ s.length := by
        have hx := occur_le closeTok_ne_nil hc
        rw [closeTok_length] at hx
        exact hx
      exact absurd ⟨ho, hc, by omega⟩ (h p (by omega) (p + 11 + j) (by omega))
  constructor
  · rw [segments_eq, hnone]
  · rw [reSplit_map, segments_eq, hnone]
    simp [Segment.text]

theorem no_fence_single_segment_witness :
    segments ("hello world".data) = [.prose ("hello world".data)] ∧
    reSplit ("hello world".data) = ["hello world".data] :=
  no_fence_single_segment ("hello world".data) (by decide)


/-- When the first opening marker and, after it, the first close token are
known, the leftmost lazy match is determined. -/
theorem findMatch_of {s : List Char} {p j : Nat}
    (h1 : findSub openTok s = some p)
    (h2 : findSub closeTok (s.drop (p + 11)) = some j) :
    findMatch s = some (p, (s.drop (p + 11)).take j, p + 11 + j + 4) := by
  unfold findMatch
  simp only [h1]
  simp only [h2]

/-- C6.  Adjacent-fence tolerance: two well-formed fences with nothing
between the first close and the second opening split into
`prose, diagram, empty prose, diagram, …` — the split inserts an
empty-string Prose segment between the two Diagram segments. -/
theorem adjacent_fences (a g1 g2 t : List Char)
    (hopen : ∀ q, q < a.length → ¬ openTok <+:
      (a ++ openTok ++ g1 ++ closeTok ++ openTok ++ g2 ++ closeTok ++ t).drop q)
    (hc1 : ∀ q, q < g1.length → ¬ closeTok <+:
      (g1 ++ closeTok ++ openTok ++ g2 ++ closeTok ++ t).drop q)
    (hc2 : ∀ q, q < g2.length → ¬ closeTok <+:
      (g2 ++ closeTok ++ t).drop q) :
    segments (a ++ openTok ++ g1 ++ closeTok ++ openTok ++ g2 ++ closeTok ++ t)
      = .prose a :: .diagram g1 :: .prose [] :: .diagram g2 :: segments t := by
  have hassoc1 : g1 ++ closeTok ++ openTok ++ g2 ++ closeTok ++ t =
      g1 ++ (closeTok ++ (openTok ++ (g2 ++ (closeTok ++ t)))) := by
    simp [List.append_assoc]
  rw [hassoc1] at hc1
  have hassoc2 : g2 ++ closeTok ++ t = g2 ++ (closeTok ++ t) := by
    simp [List.append_assoc]
  rw [hassoc2] at hc2
  set s : List Char :=
    a ++ openTok ++ g1 ++ closeTok ++ openTok ++ g2 ++ closeTok ++ t with hs
  have hsr : s = a ++ (openTok ++ (g1 ++ (closeTok ++
      (openTok ++ (g2 ++ (closeTok ++ t)))))) := by
    rw [hs]; simp [List.append_assoc]
  have hrest1 : s.drop a.length =
      openTok ++ (g1 ++ (closeTok ++ (openTok ++ (g2 ++ (closeTok ++ t))))) := by
    rw [hsr, List.drop_left]
  have hfs1 : findSub openTok s = some a.length := by
    apply findSub_of_min
    · rw [hrest1]
      exact ⟨g1 ++ (closeTok ++ (openTok ++ (g2 ++ (closeTok ++ t)))), rfl⟩
    · exact hopen
  have hre2 : s = (a ++ openTok) ++
      (g1 ++ (closeTok ++ (openTok ++ (g2 ++ (closeTok ++ t))))) := by
    rw [hs]; simp [List.append_assoc]
  have hdrop_a11 : s.drop (a.length + 11) =
      g1 ++ (closeTok ++ (openTok ++ (g2 ++ (closeTok ++ t)))) := by
    rw [hre2]
    exact List.drop_left' (by simp [openTok_length])
  have hfs2 : findSub closeTok (s.drop (a.length + 11)) = some g1.length := by
    apply findSub_of_min
    · rw [hdrop_a11, List.drop_left]
      exact ⟨openTok ++ (g2 ++ (closeTok ++ t)), rfl⟩
    · intro q hq
      rw [hdrop_a11]
      exact hc1 q hq
  have hfm1 : findMatch s =
      some (a.length, g1, a.length + 11 + g1.length + 4) := by
    rw [findMatch_of hfs1 hfs2, hdrop_a11, List.take_left]
  have htake_a : s.take a.length = a := by
    rw [hsr, List.take_left]
  have hdrop_e1 : s.drop (a.length + 11 + g1.length + 4) =
      openTok ++ (g2 ++ (closeTok ++ t)) := by
    have hre3 : s = ((a ++ openTok) ++ (g1 ++ closeTok)) ++
        (openTok ++ (g2 ++ (closeTok ++ t))) := by
      rw [hs]; simp [List.append_assoc]
    rw [hre3]
    refine List.drop_left' ?_
    simp only [List.length_append, openTok_length, closeTok_length]
    omega
  set s2 : List Char := openTok ++ (g2 ++ (closeTok ++ t)) with hs2
  have hfs3 : findSub openTok s2 = some 0 := by
    apply findSub_of_min
    · exact ⟨g2 ++ (closeTok ++ t), by rw [List.drop_zero]⟩
    · intro q hq
      exact absurd hq (by omega)
  have hdrop11 : s2.drop (0 + 11) = g2 ++ (closeTok ++ t) := by
    rw [hs2]
    simp only [Nat.zero_add]
    exact List.drop_left' openTok_length
  have hfs4 : findSub closeTok (s2.drop (0 + 11)) = some g2.length := by
    rw [hdrop11]
    apply findSub_of_min
    · rw [List.drop_left]
      exact ⟨t, rfl⟩
    · exact hc2
  have hfm2 : findMatch s2 = some (0, g2, 0 + 11 + g2.length + 4) := by
    rw [findMatch_of hfs3 hfs4, hdrop11, List.take_left]
  have hdrop_e2 : s2.drop (0 + 11 + g2.length + 4) = t := by
    rw [hs2]
    have hre4 : openTok ++ (g2 ++ (closeTok ++ t)) =
        ((openTok ++ g2) ++ closeTok) ++ t := by
      simp [List.append_assoc]
    rw [hre4]
    refine List.drop_left' ?_
    simp only [List.length_append, openTok_length, closeTok_length]
    try omega
  calc segments s
      = .prose (s.take a.length) :: .diagram g1 ::
          segments (s.drop (a.length + 11 + g1.length + 4)) := by
        rw [segments_eq, hfm1]
    _ = .prose a :: .diagram g1 :: segments s2 := by
        rw [htake_a, hdrop_e1]
    _ = .prose a :: .diagram g1 :: (.prose (s2.take 0) :: .diagram g2 ::
          segments (s2.drop (0 + 11 + g2.length + 4))) := by
        rw [segments_eq (s := s2), hfm2]
    _ = .prose a :: .diagram g1 :: .prose [] :: .diagram g2 :: segments t := by
        rw [hdrop_e2]
        rfl

theorem adjacent_fences_witness :
    segments ("p".data ++ openTok ++ "A".data ++ closeTok ++ openTok ++
        "B".data ++ closeTok ++ "q".data)
      = .prose "p".data :: .diagram "A".data :: .prose [] ::
        .diagram "B".data :: segments "q".data :=
  adjacent_fences "p".data "A".data "B".data "q".data
    (by decide) (by decide) (by decide)

/-- If every close token that completes some opening marker lies wholly
inside the prefix `u`, then every match the scanner consumes stays inside
`u`, and the tail `v` survives into the final (trailing) segment. -/
theorem lastSeg_suffix : ∀ n u v, (u ++ v).length ≤ n →
    (∀ p q, openTok <+: (u ++ v).drop p → closeTok <+: (u ++ v).drop q →
      p + 11 ≤ q → q + 4 ≤ u.length) →
    v <:+ ((splitGo n (u ++ v)).getLast (splitGo_ne_nil n (u ++ v))).text := by
  intro n
  induction n with
  | zero =>
    intro u v hlen hH
    have h0 : u.length + v.length ≤ 0 := by simpa using hlen
    have hu : u = [] := List.eq_nil_of_length_eq_zero (by omega)
    have hv : v = [] := List.eq_nil_of_length_eq_zero (by omega)
    subst hu
    subst hv
    exact ⟨[], rfl⟩
  | succ n' ih =>
    intro u v hlen hH
    cases hmt : findMatch (u ++ v) with
    | none =>
      have hx : splitGo (n' + 1) (u ++ v) = [.prose (u ++ v)] := by
        rw [splitGo_succ, hmt]
      rw [List.getLast_congr _ _ hx]
      · exact ⟨u, rfl⟩
      · exact List.cons_ne_nil _ _
    | some pge =>
      obtain ⟨p, g, e⟩ := pge
      obtain ⟨j, hg, hjl, he, ho, _, hc, _, _, hle⟩ := findMatch_some_spec hmt
      have heu : e ≤ u.length := by
        have hq4 := hH p (p + 11 + j) ho hc (by omega)
        omega
      have hda : (u ++ v).drop e = u.drop e ++ v :=
        List.drop_append_of_le_length heu
      have hx : splitGo (n' + 1) (u ++ v) =
          .prose ((u ++ v).take p) :: .diagram g ::
            splitGo n' ((u ++ v).drop e) := by
        rw [splitGo_succ, hmt]
      rw [List.getLast_congr _ _ hx, List.getLast_cons, List.getLast_cons]
      have hx2 : splitGo n' ((u ++ v).drop e) = splitGo n' (u.drop e ++ v) := by
        rw [hda]
      rw [List.getLast_congr _ _ hx2]
      apply ih (u.drop e) v
      · simp only [List.length_append, List.length_drop] at hlen ⊢
        omega
      · intro p' q' hop hcl hpq
        rw [← hda, List.drop_drop] at hop hcl
        have hq4 := hH (e + p') (e + q') hop hcl (by omega)
        simp only [List.length_drop]
        omega
      all_goals exact splitGo_ne_nil n' _

/-- C5 counterexample.  The input `"```mermaid\nX\n```mermaid\n"` ends in
an opening mermaid fence marker (at index 13) that is never followed by a
close token, yet the lazy close of the first fence consumes the backticks
of that final opening marker: the trailing Prose segment is
`"mermaid\n"`, which does not include the text of the unterminated
opening marker. -/
theorem unterminated_fence_over_claim :
    "```mermaid\nX\n```mermaid\n".data = "```mermaid\nX\n".data ++ openTok ∧
    ("```mermaid\nX\n```mermaid\n".data).drop 13 = openTok ∧
    findSub closeTok (("```mermaid\nX\n```mermaid\n".data).drop 13) = none ∧
    segments ("```mermaid\nX\n```mermaid\n".data) =
      [.prose [], .diagram "X".data, .prose "mermaid\n".data] ∧
    ¬ openTok <:+: "mermaid\n".data := by
  refine ⟨by decide, by decide, by decide, by decide, by decide⟩

/-- C5 (amended).  If, additionally, no close token pairs with any
opening marker beyond the prose prefix `a` — i.e. every close token that
stands at least 11 characters after some opening marker ends inside `a`
— then the unterminated fence `openTok ++ t` at the end of the input is
not matched and survives, in full, as a suffix of the trailing Prose
segment. -/
theorem unterminated_fence_trailing_prose (a t : List Char)
    (h : ∀ p q, openTok <+: (a ++ (openTok ++ t)).drop p →
      closeTok <+: (a ++ (openTok ++ t)).drop q → p + 11 ≤ q →
      q + 4 ≤ a.length) :
    (openTok ++ t) <:+
      ((segments (a ++ (openTok ++ t))).getLast
        (segments_ne_nil (a ++ (openTok ++ t)))).text :=
  lastSeg_suffix (a ++ (openTok ++ t)).length a (openTok ++ t)
    (Nat.le_refl _) h

theorem unterminated_fence_trailing_prose_witness :
    (openTok ++ "graph".data) <:+
      ((segments ("hi".data ++ (openTok ++ "graph".data))).getLast
        (segments_ne_nil ("hi".data ++ (openTok ++ "graph".data)))).text :=
  unterminated_fence_trailing_prose "hi".data "graph".data
    (fun p q hp hq hpq =>
      absurd hq (findSub_none
        (by decide :
          findSub closeTok ("hi".data ++ (openTok ++ "graph".data)) = none) q))

-- The HTML export (`generate_html_report`, lines 75-130 of `src/app.py`).

/-- Fixed chunk of the header f-string before the first `{file_name}`
interpolation. -/
def hdrPre : List Char :=
  ("\n    <!DOCTYPE html>\n    <html lang=\"en\">\n    <head>\n        <meta charset=\"UTF-8\">\n        <meta name=\"viewport\" content=\"width=device-width, initial-scale=1.0\">\n        <title>Code Analysis for ").data

/-- Fixed chunk of the header f-string between the two `{file_name}`
interpolations (closing the title, the embedded stylesheet, opening the
body and the heading). -/
def hdrMid : List Char :=
  ("</title>\n        <style>\n            body \x7b font-family: -apple-system, BlinkMacSystemFont, \"Segoe UI\", Roboto, Helvetica, Arial, sans-serif; line-height: 1.6; padding: 20px; max-width: 1000px; margin: auto; background-color: #f9f9f9; \x7d\n            h1, h2, h3, h4 \x7b color: #333; border-bottom: 1px solid #ddd; padding-bottom: 5px; \x7d\n            pre \x7b background: #2d2d2d; color: #f1f1f1; padding: 15px; border-radius: 5px; overflow-x: auto; \x7d\n            code \x7b font-family: \"Courier New\", Courier, monospace; \x7d\n            .mermaid \x7b text-align: center; margin-bottom: 20px; padding: 10px; border: 1px solid #ddd; border-radius: 5px; background-color: #fff; \x7d\n            ul, ol \x7b padding-left: 20px; \x7d\n            blockquote \x7b border-left: 4px solid #ddd; padding-left: 10px; color: #555; margin-left: 0; \x7d\n        </style>\n    </head>\n    <body>\n        <h1>Code Analysis for ").data

/-- Fixed chunk of the header f-string after the second `{file_name}`
interpolation. -/
def hdrPost : List Char := ("</h1>\n    ").data

/-- The header block appended first (lines 86-105): the f-string with the
display name spliced in, verbatim, at its two interpolation points. -/
def htmlHeader (file_name : List Char) : List Char :=
  hdrPre ++ file_name ++ hdrMid ++ file_name ++ hdrPost

/-- The trailing script block appended last (lines 121-128). -/
def htmlFooter : List Char :=
  ("\n        <script type=\"module\">\n            import mermaid from \x27https://cdn.jsdelivr.net/npm/mermaid@10/dist/mermaid.esm.min.mjs\x27;\n            mermaid.initialize(\x7b startOnLoad: true \x7d);\n        </script>\n    </body>\n    </html>\n    ").data

/-- Line 118: a diagram part becomes a `.mermaid` container div holding
the stripped diagram source. -/
def mermaidDiv (part : List Char) : List Char :=
  ("<div class=\"mermaid\">\n").data ++ pyStrip part ++ ("\n</div>").data

/-- The body loop of `generate_html_report` (lines 110-118): even-indexed
parts go through the external markdown renderer, odd-indexed parts become
mermaid container divs.  The flag is true when the next part is
odd-indexed. -/
def renderPartsGo (render : List Char → List Char) :
    Bool → List (List Char) → List (List Char)
  | _, [] => []
  | false, part :: ps => render part :: renderPartsGo render true ps
  | true, part :: ps => mermaidDiv part :: renderPartsGo render false ps

/-- `generate_html_report(raw_markdown_content, file_name)` with the
external markdown-to-HTML transformer `md_parser.render` abstracted as
`render`: header, per-part renderings, trailing script block, joined. -/
def generate_html_report (render : List Char → List Char)
    (raw_markdown_content file_name : List Char) : List Char :=
  ((htmlHeader file_name :: renderPartsGo render false
      (reSplit raw_markdown_content)) ++ [htmlFooter]).flatten

/-- The diagram texts embedded as `.mermaid` containers by the export
loop, in order: the stripped odd-indexed parts of the split. -/
def exportDiagramsGo : Bool → List (List Char) → List (List Char)
  | _, [] => []
  | false, _ :: ps => exportDiagramsGo true ps
  | true, part :: ps => pyStrip part :: exportDiagramsGo false ps

/-- Diagram containers of the exported document for a response text. -/
def exportDiagrams (raw : List Char) : List (List Char) :=
  exportDiagramsGo false (reSplit raw)

-- The interactive rendering path (lines 176-193 of `src/app.py`).

/-- One visible action of the Streamlit page. -/
inductive UiStep where
  | downloadButton (html : List Char) : UiStep
  | errorBanner (msg : List Char) : UiStep
  | pageDivider : UiStep
  | stMarkdown (text : List Char) : UiStep
  | stMermaidWidget (code : List Char) : UiStep
  | stCodeBlock (code : List Char) : UiStep
deriving DecidableEq

/-- The rendering loop (lines 182-193): even-indexed parts via
`st.markdown(part)`, odd-indexed parts via `st_mermaid(part.strip())`
followed by the collapsible `st.code(part.strip())` view. -/
def interactiveGo : Bool → List (List Char) → List UiStep
  | _, [] => []
  | false, part :: ps => .stMarkdown part :: interactiveGo true ps
  | true, part :: ps => .stMermaidWidget (pyStrip part) ::
      .stCodeBlock (pyStrip part) :: interactiveGo false ps

/-- The interactive rendering of a response text. -/
def interactiveUi (raw : List Char) : List UiStep :=
  interactiveGo false (reSplit raw)

/-- The argument of an `st_mermaid` widget call, if the step is one. -/
def mermaidArg : UiStep → Option (List Char)
  | .stMermaidWidget code => some code
  | _ => none

/-- Diagram texts handed to the interactive mermaid widget, in order. -/
def interactiveDiagrams (raw : List Char) : List (List Char) :=
  (interactiveUi raw).filterMap mermaidArg

/-- Lines 164-174: the download-button block runs in its own
`try/except`; success shows the button, failure shows the error banner
with the exception text. -/
def exportStep : Except (List Char) (List Char) → List UiStep
  | .ok html => [.downloadButton html]
  | .error e =>
      [.errorBanner (("Could not generate HTML report: ").data ++ e)]

/-- Lines 164-193: export block, then the divider, then — unconditionally
— the interactive rendering of the same response. -/
def displayFlow (result : Except (List Char) (List Char))
    (raw : List Char) : List UiStep :=
  exportStep result ++ (.pageDivider :: interactiveUi raw)

theorem interactiveGo_diagrams : ∀ ps b,
    (interactiveGo b ps).filterMap mermaidArg = exportDiagramsGo b ps := by
  intro ps
  induction ps with
  | nil => intro b; cases b <;> rfl
  | cons p ps ih =>
    intro b
    cases b with
    | false =>
      simp [interactiveGo, exportDiagramsGo, List.filterMap_cons, mermaidArg,
        ih]
    | true =>
      simp [interactiveGo, exportDiagramsGo, List.filterMap_cons, mermaidArg,
        ih]

/-- C3.  Consistency between views: the diagram texts rendered by the
interactive mermaid widgets equal, in number and order, the diagram
texts embedded as containers in the exported document — both are the
same function of the response text. -/
theorem views_consistent (raw : List Char) :
    interactiveDiagrams raw = exportDiagrams raw := by
  unfold interactiveDiagrams interactiveUi exportDiagrams
  exact interactiveGo_diagrams (reSplit raw) false

/-- C8.  Export-failure isolation: when building the downloadable
document fails, the error banner replaces the download button, and the
interactive rendering of every segment still follows, identical to the
success case. -/
theorem export_failure_isolated (e raw : List Char) :
    displayFlow (Except.error e) raw =
      UiStep.errorBanner (("Could not generate HTML report: ").data ++ e) ::
        UiStep.pageDivider :: interactiveUi raw ∧
    ∀ html, (displayFlow (Except.error e) raw).drop 1 =
      (displayFlow (Except.ok html) raw).drop 1 :=
  ⟨rfl, fun _ => rfl⟩

set_option maxRecDepth 16384 in
/-- C10.  The exported document embeds the display name verbatim — no
HTML escaping — exactly twice in the fixed head/header block: once
inside the `title` element and once inside the top-level heading. -/
theorem file_name_embedded_twice (render : List Char → List Char)
    (raw file_name : List Char) :
    generate_html_report render raw file_name =
      hdrPre ++ (file_name ++ (hdrMid ++ (file_name ++ (hdrPost ++
        ((renderPartsGo render false (reSplit raw)).flatten ++
          htmlFooter))))) ∧
    ("<title>Code Analysis for ").data <:+ hdrPre ∧
    ("</title>").data <+: hdrMid ∧
    ("<h1>Code Analysis for ").data <:+ hdrMid ∧
    ("</h1>").data <+: hdrPost := by
  refine ⟨?_, by decide, by decide, by decide, by decide⟩
  unfold generate_html_report htmlHeader
  simp [List.append_assoc]

/-- The example response text of the specification scenario. -/
def exampleInput : List Char :=
  "Intro text\n```mermaid\nA-->B\n```\nOutro text".data

/-- C4.  The example scenario: the input splits into exactly
`["Intro text\n", "A-->B", "\nOutro text"]` with parity Prose, Diagram,
Prose, and the exported document contains exactly one diagram container,
holding `A-->B`. -/
theorem example_scenario (render : List Char → List Char)
    (name : List Char) :
    reSplit exampleInput =
      ["Intro text\n".data, "A-->B".data, "\nOutro text".data] ∧
    segments exampleInput =
      [.prose "Intro text\n".data, .diagram "A-->B".data,
        .prose "\nOutro text".data] ∧
    exportDiagrams exampleInput = ["A-->B".data] ∧
    generate_html_report render exampleInput name =
      htmlHeader name ++ (render ("Intro text\n".data) ++
        (mermaidDiv ("A-->B".data) ++ (render ("\nOutro text".data) ++
          htmlFooter))) ∧
    mermaidDiv ("A-->B".data) =
      ("<div class=\"mermaid\">\nA-->B\n</div>").data := by
  refine ⟨by decide, by decide, by decide, ?_, by decide⟩
  unfold generate_html_report
  rw [show reSplit exampleInput =
    ["Intro text\n".data, "A-->B".data, "\nOutro text".data] by decide]
  simp [renderPartsGo, List.append_assoc]
